import Mathlib

/-!
Verification of the deduplicating normalizer from
`src/challenges/challenge_2026_02_11_1770833879583.py`.

The Python class `Solution` has two methods:

* `process_data(data)`: iterates `data` once, keeping a `seen` set and an
  accumulation list `result`; each item not yet in `seen` is added to `seen`
  and appended to `result`; finally `sorted(result)` is returned.
* `validate_input(data)`: returns `data is not None and len(data) > 0`.

We embed these shallowly: the loop becomes the structurally recursive
`dedupLoop` (the `seen` set is modelled as a list used only through
membership), Python's `sorted` (a stable comparison sort by the natural
order) becomes `List.insertionSort (· ≤ ·)`, and the possibly-`None`
argument of `validate_input` becomes an `Option`.  For the frame/effect
claims we additionally embed the methods in a small heap model where Python
list objects live at numeric addresses.
-/

namespace Challenge

variable {α : Type} [DecidableEq α]

/-- The loop of `Solution.process_data`: walk `data` keeping a set `seen`
of already-accepted values and an accumulator `result`; items not in `seen`
are added to `seen` and appended to `result`.  The Python `set` is modelled
as a list consulted only through membership. -/
def dedupLoop : List α → List α → List α → List α
  | [], _seen, result => result
  | item :: rest, seen, result =>
    if item ∈ seen then dedupLoop rest seen result
    else dedupLoop rest (item :: seen) (result ++ [item])

/-- `Solution.process_data`: run the dedup loop starting from an empty seen
set and an empty accumulator, then return the accumulator sorted ascending
by the natural order (Python's `sorted`). -/
def process_data [LinearOrder α] (data : List α) : List α :=
  List.insertionSort (· ≤ ·) (dedupLoop data [] [])

/-- `Solution.validate_input`: `data is not None and len(data) > 0`,
with `None` embedded as `Option.none`. -/
def validate_input : Option (List α) → Bool
  | none => false
  | some l => decide (0 < l.length)

/-- A tiny heap of Python list objects, used for the frame/effect claims:
cell `r` holds the list object at address `r`; reads of unallocated
addresses default to `[]`. -/
structure Heap (α : Type) where
  cells : List (List α)

/-- Read the list object at address `r`. -/
def Heap.get (h : Heap α) (r : Nat) : List α := h.cells.getD r []

/-- Overwrite the list object at address `r` (an in-place update such as
`result.append(item)`). -/
def Heap.write (h : Heap α) (r : Nat) (v : List α) : Heap α :=
  ⟨h.cells.set r v⟩

/-- Allocate a fresh list object, returning the new heap and the fresh
address. -/
def Heap.alloc (h : Heap α) (v : List α) : Heap α × Nat :=
  (⟨h.cells ++ [v]⟩, h.cells.length)

/-- The loop of `Solution.process_data` in the heap model: the `result`
list lives at address `resRef` and grows by in-place appends; the `seen`
set stays pure since only its membership is observable. -/
def dedupLoopH : List α → List α → Nat → Heap α → Heap α
  | [], _seen, _resRef, h => h
  | item :: rest, seen, resRef, h =>
    if item ∈ seen then dedupLoopH rest seen resRef h
    else dedupLoopH rest (item :: seen) resRef
      (h.write resRef (h.get resRef ++ [item]))

/-- `Solution.process_data` in the heap model: `dataRef` is the address of
the input list object; `result = []` allocates a fresh object, the loop
appends to it in place, and `sorted(result)` allocates and returns a fresh
sorted object. -/
def process_data_heap [LinearOrder α] (h : Heap α) (dataRef : Nat) :
    Heap α × Nat :=
  let a1 := h.alloc []
  let h2 := dedupLoopH (a1.1.get dataRef) [] a1.2 a1.1
  h2.alloc (List.insertionSort (· ≤ ·) (h2.get a1.2))

/-- `Solution.validate_input` in the heap model: the argument is either the
`None` sentinel or the address of a list object; the method only reads the
object (`data is not None and len(data) > 0`) and writes nothing. -/
def validate_input_heap (h : Heap α) (dataRef : Option Nat) :
    Heap α × Bool :=
  (h, validate_input (dataRef.map h.get))

/-- Membership in the loop result: an element is in `dedupLoop data seen
result` iff it was already in `result`, or occurs in `data` and is not
blocked by `seen`. -/
theorem mem_dedupLoop (data : List α) :
    ∀ (seen result : List α) (a : α),
      a ∈ dedupLoop data seen result ↔ a ∈ result ∨ (a ∈ data ∧ a ∉ seen) := by
  induction data with
  | nil => intro seen result a; simp [dedupLoop]
  | cons item rest ih =>
    intro seen result a
    by_cases h : item ∈ seen
    · simp only [dedupLoop, if_pos h, ih, List.mem_cons]
      constructor
      · rintro (hr | ⟨hrest, hs⟩)
        · exact Or.inl hr
        · exact Or.inr ⟨Or.inr hrest, hs⟩
      · rintro (hr | ⟨rfl | hrest, hs⟩)
        · exact Or.inl hr
        · exact absurd h hs
        · exact Or.inr ⟨hrest, hs⟩
    · simp only [dedupLoop, if_neg h, ih, List.mem_append, List.mem_cons,
        List.not_mem_nil, or_false]
      constructor
      · rintro (⟨hr | rfl⟩ | ⟨hrest, hs⟩)
        · exact Or.inl hr
        · exact Or.inr ⟨Or.inl rfl, h⟩
        · exact Or.inr ⟨Or.inr hrest, fun hx => hs (Or.inr hx)⟩
      · rintro (hr | ⟨rfl | hrest, hs⟩)
        · exact Or.inl (Or.inl hr)
        · exact Or.inl (Or.inr rfl)
        · by_cases hai : a = item
          · exact Or.inl (Or.inr hai)
          · exact Or.inr ⟨hrest, fun hx => hx.elim hai hs⟩

/-- The loop never duplicates: if the accumulator has no duplicates and is
covered by `seen`, the final accumulator has no duplicates. -/
theorem nodup_dedupLoop (data : List α) :
    ∀ seen result : List α, result.Nodup → (∀ a ∈ result, a ∈ seen) →
      (dedupLoop data seen result).Nodup := by
  induction data with
  | nil => intro seen result hnd _; exact hnd
  | cons item rest ih =>
    intro seen result hnd hcov
    by_cases h : item ∈ seen
    · simpa only [dedupLoop, if_pos h] using ih seen result hnd hcov
    · simp only [dedupLoop, if_neg h]
      apply ih
      · refine List.Nodup.append hnd (List.nodup_singleton item) ?_
        intro a ha hb
        rw [List.mem_singleton] at hb
        subst hb
        exact h (hcov a ha)
      · intro a ha
        rcases List.mem_append.1 ha with h1 | h1
        · exact List.mem_cons_of_mem _ (hcov a h1)
        · rw [List.mem_singleton] at h1
          subst h1
          exact List.mem_cons_self _ _

/-- On duplicate-free input disjoint from `seen`, the loop just appends the
input to the accumulator. -/
theorem dedupLoop_eq_append (data : List α) :
    ∀ seen result : List α, data.Nodup → (∀ a ∈ data, a ∉ seen) →
      dedupLoop data seen result = result ++ data := by
  induction data with
  | nil => intro seen result _ _; simp [dedupLoop]
  | cons item rest ih =>
    intro seen result hnd hdis
    have h : item ∉ seen := hdis item (List.mem_cons_self _ _)
    simp only [dedupLoop, if_neg h]
    rw [ih (item :: seen) (result ++ [item]) (List.Nodup.of_cons hnd)]
    · simp
    · intro a ha
      rw [List.mem_cons]
      rintro (rfl | hx)
      · exact (List.nodup_cons.1 hnd).1 ha
      · exact hdis a (List.mem_cons_of_mem _ ha) hx

/-- The loop result on empty starting state has no duplicates. -/
theorem nodup_dedupLoop_nil (data : List α) : (dedupLoop data [] []).Nodup :=
  nodup_dedupLoop data [] [] List.nodup_nil (by intro a ha; cases ha)

/-- Membership in `process_data` agrees with membership in the input. -/
theorem mem_process_data [LinearOrder α] (x : List α) (a : α) :
    a ∈ process_data x ↔ a ∈ x := by
  rw [process_data, List.mem_insertionSort, mem_dedupLoop]
  simp

/-- `process_data` output has no duplicates. -/
theorem nodup_process_data [LinearOrder α] (x : List α) :
    (process_data x).Nodup :=
  ((List.perm_insertionSort (· ≤ ·) (dedupLoop x [] [])).nodup_iff).2
    (nodup_dedupLoop_nil x)

/-- `process_data` output is sorted ascending. -/
theorem sorted_process_data [LinearOrder α] (x : List α) :
    List.Sorted (· ≤ ·) (process_data x) :=
  List.sorted_insertionSort (· ≤ ·) (dedupLoop x [] [])

/-- C1: for every input list over a linearly ordered (hence hashable,
totally ordered) type, `process_data` returns a list with no duplicate
values, sorted ascending under the natural ordering, whose elements are
exactly the distinct elements of the input. -/
theorem process_data_spec [LinearOrder α] (x : List α) :
    (process_data x).Nodup ∧ List.Sorted (· ≤ ·) (process_data x) ∧
      ∀ a, a ∈ process_data x ↔ a ∈ x :=
  ⟨nodup_process_data x, sorted_process_data x, fun a => mem_process_data x a⟩

/-- C2: the length of `process_data x` equals the number of distinct values
of `x` (the length of `x.dedup`), and is therefore at most the length
of `x`. -/
theorem process_data_length [LinearOrder α] (x : List α) :
    (process_data x).length = x.dedup.length ∧
      (process_data x).length ≤ x.length := by
  have hto : (process_data x).toFinset = x.toFinset := by
    ext a
    simp [List.mem_toFinset, mem_process_data]
  have h1 : (process_data x).length = x.dedup.length := by
    rw [← List.toFinset_card_of_nodup (nodup_process_data x), hto,
      List.card_toFinset]
  exact ⟨h1, h1 ▸ (List.dedup_sublist x).length_le⟩

/-- C3: `process_data` is total (it is a total function of its input in
this embedding, so it cannot raise), and the empty input yields the empty
output. -/
theorem process_data_nil [LinearOrder α] : process_data ([] : List α) = [] :=
  rfl

/-- C4: `validate_input data` is true iff `data` is present (not the `none`
absence sentinel) and nonempty; in particular it is false on `none` and on
`some []`, and true on `some [1]`. -/
theorem validate_input_spec (data : Option (List α)) :
    (validate_input data = true ↔ data ≠ none ∧ ∃ l, data = some l ∧ l ≠ []) ∧
      validate_input (none : Option (List ℤ)) = false ∧
      validate_input (some ([] : List ℤ)) = false ∧
      validate_input (some ([1] : List ℤ)) = true := by
  refine ⟨?_, rfl, rfl, rfl⟩
  cases data with
  | none => simp [validate_input]
  | some l => simp [validate_input, List.length_pos]

/-- C5: `process_data` is idempotent. -/
theorem process_data_idem [LinearOrder α] (x : List α) :
    process_data (process_data x) = process_data x := by
  have hnd := nodup_process_data x
  have hs := sorted_process_data x
  rw [process_data, dedupLoop_eq_append _ [] [] hnd
      (fun a _ => List.not_mem_nil a),
    List.nil_append, List.Sorted.insertionSort_eq hs]

/-- C6: concrete scenarios: `process_data [3, 1, 2, 3, 1] = [1, 2, 3]`,
`process_data ["b", "a", "b"] = ["a", "b"]`, `process_data [5] = [5]`. -/
theorem process_data_examples :
    process_data ([3, 1, 2, 3, 1] : List ℤ) = [1, 2, 3] ∧
      process_data (["b", "a", "b"] : List String) = ["a", "b"] ∧
      process_data ([5] : List ℤ) = [5] := by
  refine ⟨by decide, ?_, by decide⟩
  have hba : ¬ ("b" : String) ≤ "a" := by
    rw [String.le_iff_toList_le]
    decide
  simp [process_data, dedupLoop, List.insertionSort, List.orderedInsert, hba]

/-- C9: `process_data x = x` iff `x` is strictly increasing, and the output
of `process_data` is always strictly increasing, hence a fixpoint. -/
theorem process_data_fixpoint [LinearOrder α] (x : List α) :
    (process_data x = x ↔ List.Sorted (· < ·) x) ∧
      List.Sorted (· < ·) (process_data x) := by
  have hlt : List.Sorted (· < ·) (process_data x) :=
    List.Sorted.lt_of_le (sorted_process_data x) (nodup_process_data x)
  refine ⟨⟨fun h => h ▸ hlt, fun hs => ?_⟩, hlt⟩
  have hnd : x.Nodup := hs.nodup
  rw [process_data, dedupLoop_eq_append _ [] [] hnd
      (fun a _ => List.not_mem_nil a),
    List.nil_append, List.Sorted.insertionSort_eq hs.le_of_lt]

/-- C10: `process_data` preserves emptiness in both directions, hence
`validate_input` gives the same verdict on the output as on the input. -/
theorem process_data_validate_input [LinearOrder α] (x : List α) :
    (process_data x = [] ↔ x = []) ∧
      validate_input (some (process_data x)) = validate_input (some x) := by
  have hiff : process_data x = [] ↔ x = [] := by
    constructor
    · intro h
      rw [List.eq_nil_iff_forall_not_mem] at h ⊢
      intro a ha
      exact h a ((mem_process_data x a).2 ha)
    · rintro rfl
      rfl
  refine ⟨hiff, ?_⟩
  by_cases hx : x = []
  · subst hx
    rfl
  · have h1 : process_data x ≠ [] := fun h => hx (hiff.1 h)
    have hx1 : 0 < x.length := List.length_pos.2 hx
    have hp1 : 0 < (process_data x).length := List.length_pos.2 h1
    simp only [validate_input, decide_eq_true hx1, decide_eq_true hp1]

omit [DecidableEq α] in
theorem Heap.get_write_self {h : Heap α} {r : Nat} {v : List α}
    (hr : r < h.cells.length) : (h.write r v).get r = v := by
  simp [Heap.get, Heap.write, List.getElem?_set_self hr]

omit [DecidableEq α] in
theorem Heap.get_write_ne {h : Heap α} {r s : Nat} {v : List α}
    (hne : r ≠ s) : (h.write s v).get r = h.get r := by
  simp [Heap.get, Heap.write, List.getElem?_set_ne (Ne.symm hne)]

omit [DecidableEq α] in
theorem Heap.length_write (h : Heap α) (r : Nat) (v : List α) :
    (h.write r v).cells.length = h.cells.length := by
  simp [Heap.write]

omit [DecidableEq α] in
theorem Heap.alloc_snd (h : Heap α) (v : List α) :
    (h.alloc v).2 = h.cells.length := rfl

omit [DecidableEq α] in
theorem Heap.length_alloc (h : Heap α) (v : List α) :
    (h.alloc v).1.cells.length = h.cells.length + 1 := by
  simp [Heap.alloc]

omit [DecidableEq α] in
theorem Heap.get_alloc_old {h : Heap α} {v : List α} {r : Nat}
    (hr : r < h.cells.length) : (h.alloc v).1.get r = h.get r := by
  simp [Heap.get, Heap.alloc, List.getElem?_append_left hr]

omit [DecidableEq α] in
theorem Heap.get_alloc_new (h : Heap α) (v : List α) :
    (h.alloc v).1.get (h.alloc v).2 = v := by
  simp [Heap.get, Heap.alloc, List.getElem?_concat_length]

/-- The heap loop never changes any address other than `resRef`. -/
theorem dedupLoopH_get_ne (data : List α) :
    ∀ (seen : List α) (resRef r : Nat) (h : Heap α), r ≠ resRef →
      (dedupLoopH data seen resRef h).get r = h.get r := by
  induction data with
  | nil => intro seen resRef r h _; rfl
  | cons item rest ih =>
    intro seen resRef r h hne
    by_cases hmem : item ∈ seen
    · simp only [dedupLoopH, if_pos hmem]
      exact ih _ _ _ _ hne
    · simp only [dedupLoopH, if_neg hmem]
      rw [ih _ _ _ _ hne, Heap.get_write_ne hne]

/-- The heap loop preserves the number of allocated cells. -/
theorem dedupLoopH_length (data : List α) :
    ∀ (seen : List α) (resRef : Nat) (h : Heap α),
      (dedupLoopH data seen resRef h).cells.length = h.cells.length := by
  induction data with
  | nil => intro seen resRef h; rfl
  | cons item rest ih =>
    intro seen resRef h
    by_cases hmem : item ∈ seen
    · simp only [dedupLoopH, if_pos hmem]
      exact ih _ _ _
    · simp only [dedupLoopH, if_neg hmem]
      rw [ih, Heap.length_write]

/-- At `resRef` the heap loop computes exactly the pure loop `dedupLoop`. -/
theorem dedupLoopH_get_resRef (data : List α) :
    ∀ (seen : List α) (resRef : Nat) (h : Heap α), resRef < h.cells.length →
      (dedupLoopH data seen resRef h).get resRef =
        dedupLoop data seen (h.get resRef) := by
  induction data with
  | nil => intro seen resRef h _; rfl
  | cons item rest ih =>
    intro seen resRef h hr
    by_cases hmem : item ∈ seen
    · simp only [dedupLoopH, dedupLoop, if_pos hmem]
      exact ih _ _ _ hr
    · simp only [dedupLoopH, dedupLoop, if_neg hmem]
      rw [ih _ _ _ (by rw [Heap.length_write]; exact hr),
        Heap.get_write_self hr]

/-- C7: in the heap model, `process_data` leaves the input list object
unchanged, returns a freshly allocated object at an address different from
the input's, and that object holds the normalized sequence. -/
theorem process_data_heap_frame [LinearOrder α] (h : Heap α) (dataRef : Nat)
    (hd : dataRef < h.cells.length) :
    (process_data_heap h dataRef).1.get dataRef = h.get dataRef ∧
      (process_data_heap h dataRef).2 ≠ dataRef ∧
      (process_data_heap h dataRef).1.get (process_data_heap h dataRef).2 =
        process_data (h.get dataRef) := by
  have hne : dataRef ≠ h.cells.length := Nat.ne_of_lt hd
  simp only [process_data_heap]
  have hg0 : (h.alloc ([] : List α)).1.get dataRef = h.get dataRef :=
    Heap.get_alloc_old hd
  have hginit : (h.alloc ([] : List α)).1.get (h.alloc ([] : List α)).2 = [] :=
    Heap.get_alloc_new h []
  have hlen2 : (dedupLoopH ((h.alloc ([] : List α)).1.get dataRef) []
      (h.alloc ([] : List α)).2 (h.alloc ([] : List α)).1).cells.length =
      h.cells.length + 1 := by
    rw [dedupLoopH_length, Heap.length_alloc]
  have hfr : (dedupLoopH ((h.alloc ([] : List α)).1.get dataRef) []
      (h.alloc ([] : List α)).2 (h.alloc ([] : List α)).1).get dataRef =
      h.get dataRef := by
    rw [dedupLoopH_get_ne _ _ _ _ _ (by rw [Heap.alloc_snd]; exact hne), hg0]
  have hres : (dedupLoopH ((h.alloc ([] : List α)).1.get dataRef) []
      (h.alloc ([] : List α)).2 (h.alloc ([] : List α)).1).get
      (h.alloc ([] : List α)).2 = dedupLoop (h.get dataRef) [] [] := by
    rw [dedupLoopH_get_resRef _ _ _ _
        (by rw [Heap.alloc_snd, Heap.length_alloc]; exact Nat.lt_succ_self _),
      hg0, hginit]
  refine ⟨?_, ?_, ?_⟩
  · rw [Heap.get_alloc_old (by rw [hlen2]; exact Nat.lt_succ_of_lt hd), hfr]
  · rw [Heap.alloc_snd, hlen2]
    omega
  · rw [Heap.get_alloc_new, hres]
    rfl

theorem process_data_heap_frame_witness :
    (process_data_heap (Heap.mk [[3, 1, 2, 3, 1]] : Heap ℤ) 0).1.get 0 =
        Heap.get (Heap.mk [[3, 1, 2, 3, 1]]) 0 ∧
      (process_data_heap (Heap.mk [[3, 1, 2, 3, 1]] : Heap ℤ) 0).2 ≠ 0 ∧
      (process_data_heap (Heap.mk [[3, 1, 2, 3, 1]] : Heap ℤ) 0).1.get
          (process_data_heap (Heap.mk [[3, 1, 2, 3, 1]] : Heap ℤ) 0).2 =
        process_data (Heap.get (Heap.mk [[3, 1, 2, 3, 1]]) 0) :=
  process_data_heap_frame (Heap.mk [[3, 1, 2, 3, 1]] : Heap ℤ) 0 (by decide)

omit [DecidableEq α] in
/-- C8: in the heap model, `validate_input` returns the whole program state
unchanged (it writes nothing), and its boolean result depends only on its
argument: two heaps in which the argument dereferences to the same value
give the same verdict. -/
theorem validate_input_heap_pure (h k : Heap α) (dataRef : Option Nat)
    (hagree : dataRef.map h.get = dataRef.map k.get) :
    (validate_input_heap h dataRef).1 = h ∧
      (validate_input_heap h dataRef).2 =
        (validate_input_heap k dataRef).2 := by
  refine ⟨rfl, ?_⟩
  simp only [validate_input_heap, hagree]

theorem validate_input_heap_pure_witness :
    (validate_input_heap (Heap.mk [[1]] : Heap ℤ) (some 0)).1 =
        (Heap.mk [[1]] : Heap ℤ) ∧
      (validate_input_heap (Heap.mk [[1]] : Heap ℤ) (some 0)).2 =
        (validate_input_heap (Heap.mk [[1], [2]] : Heap ℤ) (some 0)).2 :=
  validate_input_heap_pure (Heap.mk [[1]]) (Heap.mk [[1], [2]]) (some 0)
    (by decide)

end Challenge
